import Mathlib

/-!
Verification of the typeglot translation compiler core.

This file shallowly embeds the TypeScript sources of the typeglot
repository (packages/compiler/src/compiler.ts, watcher.ts, the parser
module, and packages/core/src/config/project-discovery.ts) and proves or
refutes the frozen behavioural claims about them.

Modelling conventions:
- JavaScript objects used as string maps (`Record<string, string>`) are
  modelled as association lists in insertion order with unique keys;
  `m[k] = v` is `objInsert` (update in place if the key exists, else
  append), matching JS property insertion-order semantics.
- `async` file I/O is modelled by passing the relevant directory
  listings / file contents as explicit inputs; a thrown exception is an
  `Except.error`; filesystem side effects (mkdir, writeFile) are logged
  in an explicit `Effect` list.
- Regex scanning (`regex.exec` in a loop with the `g` flag) is modelled
  by a character-list scanner with the same leftmost-match,
  resume-after-match, advance-one-on-failure semantics; JS `\w` is
  ASCII `[A-Za-z0-9_]`.
- Recursions that are not structural use an explicit fuel argument that
  is always initialised large enough (the input's length / size), so
  every definition is a plain structural `def` that the kernel can
  evaluate.
-/

namespace TypeGlot

/-- `InterpolationSyntax` from packages/core/src/types.ts:
`export type InterpolationSyntax = 'single' | 'double'`. -/
inductive InterpSyn where
  | single
  | double
deriving DecidableEq, Repr

/-- JS `\w`: ASCII letter, digit or underscore. -/
def isWordChar (c : Char) : Bool :=
  (('a' ≤ c && c ≤ 'z') || ('A' ≤ c && c ≤ 'Z') || ('0' ≤ c && c ≤ '9') || c = '_')

/-- Attempt to match the single-brace pattern `\{(\w+)\}` at the head of
`cs`.  On success returns the captured name and the remainder after the
match (JS `lastIndex` advanced past the closing brace).  Greedy `\w+`
followed by `}` is exactly: maximal word-char run, nonempty, then `}`
(backtracking cannot help because `\w` excludes `}`). -/
def tryMatchSingle : List Char → Option (String × List Char)
  | c :: rest =>
    if c = '{' then
      let w := rest.takeWhile isWordChar
      let r := rest.dropWhile isWordChar
      if w.isEmpty then none
      else if r.head? = some '}' then some (String.mk w, r.tail) else none
    else none
  | [] => none

/-- Attempt to match the double-brace pattern `\{\{(\w+)\}\}` at the head
of `cs`. -/
def tryMatchDouble : List Char → Option (String × List Char)
  | c1 :: c2 :: rest =>
    if c1 = '{' && c2 = '{' then
      let w := rest.takeWhile isWordChar
      let r := rest.dropWhile isWordChar
      if w.isEmpty then none
      else if r.head? = some '}' && r.tail.head? = some '}' then
        some (String.mk w, r.tail.tail)
      else none
    else none
  | _ => none

/-- The `while ((match = regex.exec(value)) !== null)` loop of the
parser: at each position try the pattern; on a match record the capture
and resume after the match, otherwise advance one character.  `fuel` is
initialised to the string length, which suffices because every step
consumes at least one character. -/
def scanAux (tryMatch : List Char → Option (String × List Char)) :
    Nat → List Char → List String
  | 0, _ => []
  | _ + 1, [] => []
  | fuel + 1, c :: rest =>
    match tryMatch (c :: rest) with
    | some (w, r) => w :: scanAux tryMatch fuel r
    | none => scanAux tryMatch fuel rest

/-- `getInterpolationRegex` from the parser module: the double syntax
selects `\{\{(\w+)\}\}`, anything else selects `\{(\w+)\}`. -/
def getInterpolationRegex (syn : InterpSyn) : List Char → Option (String × List Char) :=
  match syn with
  | .double => tryMatchDouble
  | .single => tryMatchSingle

/-- All captures produced by repeatedly running the selected regex over
`value`, in match order. -/
def matchesOf (syn : InterpSyn) (value : String) : List String :=
  scanAux (getInterpolationRegex syn) value.data.length value.data

/-- `parseParameters(value, syntax)` from the parser module: iterate the
matches and push each capture unless already present. -/
def parseParameters (value : String) (syn : InterpSyn) : List String :=
  (matchesOf syn value).foldl
    (fun params paramName =>
      if params.contains paramName then params else params ++ [paramName]) []

/-- Modelled from the spec: "the deduplicated, first-occurrence-ordered
list of parameter names" — keep the first occurrence of each name, in
order, dropping later duplicates. -/
def specFirstOccur : List String → List String
  | [] => []
  | x :: xs => x :: specFirstOccur (xs.filter (fun y => y ≠ x))
termination_by l => l.length
decreasing_by
  simp only [List.length_cons]
  exact Nat.lt_succ_of_le (List.length_filter_le _ _)

/-! ### JSON values, flattening and per-file parsing (parser module) -/

mutual
/-- A parsed JSON value as seen by `flattenTranslations`: a string keeps
its entry, an object (JS `typeof value === 'object' && value !== null`;
`Object.entries` order) recurses, every other value type is dropped.
A JS array is an object whose entries are its stringified indices, so it
is represented with `obj` as well.  The entry list is a mutual inductive
(`JsonEntries` is a cons-list of key/value pairs) so that all recursions
below are structural. -/
inductive JsonValue where
  | str (s : String)
  | obj (entries : JsonEntries)
  | other
deriving DecidableEq
inductive JsonEntries where
  | nil
  | cons (key : String) (value : JsonValue) (rest : JsonEntries)
deriving DecidableEq
end

/-- Build a `JsonEntries` list from a Lean list of pairs. -/
def JsonEntries.ofList : List (String × JsonValue) → JsonEntries
  | [] => .nil
  | (k, v) :: rest => .cons k v (JsonEntries.ofList rest)

/-- The outcome of `JSON.parse` on one file's text: either a thrown
`SyntaxError` (malformed file) carrying its message, or a value. -/
inductive ParseOutcome where
  | malformed (msg : String)
  | value (v : JsonValue)
deriving DecidableEq

/-- A translation map `Record<string, string>`: association list in JS
property insertion order, keys unique. -/
abbrev ParsedTranslations := List (String × String)

/-- JS `m[k] = v` on a string-keyed object: update in place when the key
exists (property order is first-insertion order), otherwise append. -/
def objInsert (m : ParsedTranslations) (k v : String) : ParsedTranslations :=
  if (List.any m fun p => p.1 = k) then
    List.map (fun p => if p.1 = k then (k, v) else p) m
  else m ++ [(k, v)]

/-- JS `Object.assign(m, adds)`: insert every entry of `adds` into `m`
in order. -/
def objAssign (m adds : ParsedTranslations) : ParsedTranslations :=
  adds.foldl (fun acc p => objInsert acc p.1 p.2) m

mutual
/-- The body of `flattenTranslations(obj, prefix)`: iterate the entries,
writing string values into the shared result (`result[fullKey] = value`)
and `Object.assign`-ing the recursive flattening of object values, which
starts from a fresh empty map.  `flattenValue` is the contribution of one
entry's value at its full key. -/
def flattenValue : String → JsonValue → ParsedTranslations
  | fullKey, .str s => [(fullKey, s)]
  | fullKey, .obj sub => flattenEntries fullKey sub []
  | _, .other => []
def flattenEntries : String → JsonEntries → ParsedTranslations → ParsedTranslations
  | _, .nil, acc => acc
  | pre, .cons k v rest, acc =>
    let fullKey := if pre = "" then k else pre ++ "." ++ k
    flattenEntries pre rest (objAssign acc (flattenValue fullKey v))
end

/-- `flattenTranslations(obj, prefix = '')` from the parser module. -/
def flattenTranslations (entries : JsonEntries) : ParsedTranslations :=
  flattenEntries "" entries []

/-- One physical translation file: its basename inside its directory
(e.g. `"en.json"`, `"default.json"`) and its content. -/
structure NamedFile where
  name : String
  content : ParseOutcome
deriving DecidableEq

/-- `parseTranslationFile(filePath)`: `JSON.parse` errors propagate; a
top-level value that is not a non-null object throws
`Invalid translation file: ...`; otherwise the flattened map. -/
def parseTranslationFile (f : NamedFile) : Except String ParsedTranslations :=
  match f.content with
  | .malformed msg => .error msg
  | .value v =>
    match v with
    | .obj entries => .ok (flattenTranslations entries)
    | _ => .error ("Invalid translation file: " ++ f.name)

/-! ### Locale enumeration (TypeGlotCompiler.getLocaleInfos and helpers) -/

/-- The two values of `config.filePattern`:
`'{locale}.json'` (flat) and `'{locale}/{namespace}.json'` (namespaced). -/
inductive FilePattern where
  | flat
  | namespaced
deriving DecidableEq, Repr

/-- One entry of a directory listing, as returned by
`fs.promises.readdir(dir, { withFileTypes: true })`: a file with its
content, or a subdirectory with its own entries.  `readable = false` on a
subdirectory means reading it throws (the code catches and ignores
that). -/
inductive FsEntry where
  | file (name : String) (content : ParseOutcome)
  | dir (name : String) (readable : Bool) (sub : List FsEntry)

/-- The locales directory itself: `unreadable` when `readdir` on it
throws (missing directory), else its entries in listing order. -/
inductive LocalesDir where
  | unreadable
  | readable (es : List FsEntry)

/-- `'x.json'.endsWith('.json')`. -/
def hasJsonExt (name : String) : Bool :=
  List.isSuffixOf ".json".data name.data

/-- `path.basename(name, '.json')`: drop the extension when present. -/
def basenameNoJson (name : String) : String :=
  if hasJsonExt name then String.mk (name.data.take (name.data.length - 5)) else name

/-- A locale with its contributing files (`interface LocaleInfo`). -/
structure LocaleInfo where
  locale : String
  files : List NamedFile
deriving DecidableEq

/-- `getFlatLocaleInfos`: every top-level `.json` file is one locale
named from its basename; a missing directory yields `[]`. -/
def getFlatLocaleInfos (d : LocalesDir) : List LocaleInfo :=
  match d with
  | .unreadable => []
  | .readable es =>
    es.filterMap fun e =>
      match e with
      | .file name content =>
        if hasJsonExt name then some ⟨basenameNoJson name, [⟨name, content⟩]⟩ else none
      | .dir _ _ _ => none

/-- One entry of a locale subdirectory: only `.json` files count. -/
def jsonFileOf (se : FsEntry) : Option NamedFile :=
  match se with
  | .file n c => if hasJsonExt n then some ⟨n, c⟩ else none
  | .dir _ _ _ => none

/-- The `.json` files collected from one locale subdirectory; an
unreadable subdirectory contributes none (its `readdir` error is caught
and ignored). -/
def nsFiles (readable : Bool) (sub : List FsEntry) : List NamedFile :=
  if readable then sub.filterMap jsonFileOf else []

/-- One top-level entry's contribution: a directory becomes a locale
only when it holds at least one matching file; plain files at the top
level contribute nothing under the namespaced convention. -/
def nsLocaleOf (e : FsEntry) : Option LocaleInfo :=
  match e with
  | .file _ _ => none
  | .dir name readable sub =>
    if (nsFiles readable sub).length > 0 then some ⟨name, nsFiles readable sub⟩ else none

/-- `getNamespaceLocaleInfos`: every top-level directory with at least
one `.json` file inside becomes one locale; a missing locales directory
yields `[]`. -/
def getNamespaceLocaleInfos (d : LocalesDir) : List LocaleInfo :=
  match d with
  | .unreadable => []
  | .readable es => es.filterMap nsLocaleOf

/-- `getLocaleInfos`: dispatch on the configured file pattern. -/
def getLocaleInfos (pat : FilePattern) (d : LocalesDir) : List LocaleInfo :=
  match pat with
  | .namespaced => getNamespaceLocaleInfos d
  | .flat => getFlatLocaleInfos d

/-! ### Per-locale merge (TypeGlotCompiler.parseLocaleFiles) -/

/-- The namespace-prefix rule: keys of a namespace other than `default`
are prefixed `"{namespace}.{key}"`; the `default` namespace contributes
unprefixed keys. -/
def prefixedKey (ns key : String) : String :=
  if ns = "default" then key else ns ++ "." ++ key

/-- The loop body of `parseLocaleFiles`: parse each file in order (a
parse exception aborts the whole call), then, under the namespaced
pattern, insert each key under its prefixed name; under the flat
pattern, `Object.assign` the whole map. -/
def parseLocaleFilesGo (pat : FilePattern) :
    List NamedFile → ParsedTranslations → Except String ParsedTranslations
  | [], merged => .ok merged
  | f :: rest, merged =>
    match parseTranslationFile f with
    | .error e => .error e
    | .ok translations =>
      if pat = .namespaced then
        let ns := basenameNoJson f.name
        parseLocaleFilesGo pat rest
          (translations.foldl (fun acc p => objInsert acc (prefixedKey ns p.1) p.2) merged)
      else
        parseLocaleFilesGo pat rest (objAssign merged translations)

/-- `parseLocaleFiles(localeInfo)`: merge all files of one locale into a
single flat map, starting from `{}`. -/
def parseLocaleFiles (pat : FilePattern) (li : LocaleInfo) : Except String ParsedTranslations :=
  parseLocaleFilesGo pat li.files []

/-! ### The compile pipeline (TypeGlotCompiler.compile) -/

/-- `CompileResult` from compiler.ts; the optional `errors` array is a
list that is empty when absent. -/
structure CompileResult where
  success : Bool
  outputPath : String
  keysCount : Nat
  errors : List String
deriving DecidableEq, Repr

/-- A filesystem side effect performed by `compile`:
`fs.promises.mkdir(dir, { recursive: true })` or
`fs.promises.writeFile(path, ...)`, in execution order. -/
inductive Effect where
  | mkdirRecursive (dir : String)
  | write (path : String)
deriving DecidableEq, Repr

/-- The configuration fields `compile` reads (`TypeGlotConfig`), with
directories already resolved against the project root. -/
structure Config where
  sourceLocale : String
  filePattern : FilePattern
  localesDir : String
  outputDir : String

/-- The `for (const localeInfo of localeInfos)` loop of `compile`:
parse each locale (an exception propagates and stops everything), write
its module `{outputDir}/{locale}.ts` and record a successful
`CompileResult` with the merged key count. -/
def compileLocalesLoop (pat : FilePattern) (outputDir : String) :
    List LocaleInfo → List Effect → List CompileResult →
    List Effect × Except String (List CompileResult)
  | [], effs, results => (effs, .ok results)
  | li :: rest, effs, results =>
    match parseLocaleFiles pat li with
    | .error e => (effs, .error e)
    | .ok translations =>
      let outputPath := outputDir ++ "/" ++ li.locale ++ ".ts"
      compileLocalesLoop pat outputDir rest (effs ++ [.write outputPath])
        (results ++ [⟨true, outputPath, translations.length, []⟩])

/-- `TypeGlotCompiler.compile()`: create the output directory, enumerate
locales, bail out with `[]` when none exist, fail with a single result
when the source locale is missing, otherwise write the messages module,
every locale module and the index module.  The first component is the
ordered log of filesystem effects performed before returning or before
the propagated exception. -/
def compile (cfg : Config) (localesDir : LocalesDir) : List Effect × Except String (List CompileResult) :=
  let effs0 : List Effect := [.mkdirRecursive cfg.outputDir]
  let localeInfos := getLocaleInfos cfg.filePattern localesDir
  if localeInfos.length = 0 then (effs0, .ok [])
  else
    match localeInfos.find? (fun l => l.locale = cfg.sourceLocale) with
    | none =>
      (effs0, .ok [⟨false, "", 0, ["Source locale not found: " ++ cfg.sourceLocale]⟩])
    | some sourceLocaleInfo =>
      match parseLocaleFiles cfg.filePattern sourceLocaleInfo with
      | .error e => (effs0, .error e)
      | .ok sourceTranslations =>
        let mainPath := cfg.outputDir ++ "/messages.ts"
        let effs1 := effs0 ++ [.write mainPath]
        let mainResult : CompileResult := ⟨true, mainPath, sourceTranslations.length, []⟩
        match compileLocalesLoop cfg.filePattern cfg.outputDir localeInfos effs1 [mainResult] with
        | (effs, .error e) => (effs, .error e)
        | (effs, .ok results) =>
          (effs ++ [.write (cfg.outputDir ++ "/index.ts")], .ok results)

/-! ### The watch loop (TranslationWatcher, watcher.ts)

`TranslationWatcher` holds only `compiler`, `watcher` and `options` — it
has no busy flag and no pending-recompile flag.  Each chokidar
`add`/`change`/`unlink` event invokes `handleChange(filePath, event)`,
whose entire body is a log line followed by `await this.compile()`: one
full compiler pass per delivered event, unconditionally.  The model
therefore tracks, for a run of the watcher, how many compiler passes
have been started. -/

/-- A chokidar filesystem event kind wired up in `start`. -/
inductive WatchEvent where
  | added
  | changed
  | removed
deriving DecidableEq, Repr

/-- The observable state of one watcher run: the number of compiler
passes started so far (`start` itself performs the initial pass). -/
structure WatcherTrace where
  passes : Nat
deriving DecidableEq, Repr

/-- `TranslationWatcher.handleChange`: logs and runs exactly one
`this.compile()` pass; there is no conditional and no pending state. -/
def handleChange (t : WatcherTrace) (_filePath : String) (_event : WatchEvent) : WatcherTrace :=
  { t with passes := t.passes + 1 }

/-- Deliver a sequence of filesystem events to the watcher, in order;
each one invokes `handleChange`. -/
def deliverEvents (t : WatcherTrace) (es : List (String × WatchEvent)) : WatcherTrace :=
  es.foldl (fun acc e => handleChange acc e.1 e.2) t

/-! ### Project discovery (packages/core/src/config/project-discovery.ts) -/

/-- One configuration file found by globbing for one of the candidate
filenames: the directory that contains it (as a path relative to the
workspace root, `""` for the root itself), the matched filename, and
whether `JSON.parse` plus schema validation succeed. -/
structure FoundConfig where
  relDir : String
  fileName : String
  valid : Bool
deriving DecidableEq, Repr

/-- The discovery-relevant part of a `DiscoveredProject` record. -/
structure DiscoveredProject where
  id : String
  configPath : String
deriving DecidableEq, Repr

/-- `const id = relativePath || 'root'`. -/
def projectId (relDir : String) : String :=
  if relDir = "" then "root" else relDir

/-- `id.split('/').length`: one more than the number of `'/'`
characters (JS `split` never drops empty segments). -/
def segDepth (s : String) : Nat :=
  (s.data.filter (fun c => c = '/')).length + 1

/-- The loop body of `discoverProjects`: an invalid config file is
skipped with a warning; a valid one is pushed as a
`DiscoveredProject`. -/
def foundProject (f : FoundConfig) : Option DiscoveredProject :=
  if f.valid then
    some ⟨projectId f.relDir,
          (if f.relDir = "" then f.fileName else f.relDir ++ "/" ++ f.fileName)⟩
  else none

/-- The sort comparator
`(a, b) => a.id.split('/').length - b.id.split('/').length`:
`a` sorts no later than `b` iff its depth is ≤ (JS sort is stable, so a
zero comparison keeps the original order, as `mergeSort` does). -/
def depthLE (a b : DiscoveredProject) : Bool :=
  segDepth a.id ≤ segDepth b.id

/-- `discoverProjects(workspaceRoot)` as a function of its glob results:
`found` holds, for each candidate config filename in order
(`typeglot.config.json`, `typeglot.config.js`, `.typeglotrc`), the list
of matches in the order glob returned them.  Invalid files are skipped;
every valid file is pushed; finally the list is sorted by path depth
with JS's stable `Array.prototype.sort`. -/
def discoverProjects (found : List (List FoundConfig)) : List DiscoveredProject :=
  (found.flatten.filterMap foundProject).mergeSort depthLE

/-! ### Concrete inputs used by the claim-specific theorems -/

/-- A flat-convention configuration with source locale `en`. -/
def exFlatCfg : Config := ⟨"en", .flat, "./locales", "./out"⟩

/-- A locales directory whose `en.json` parses and whose `es.json` is
malformed (its `JSON.parse` throws). -/
def exMalformedDir : LocalesDir :=
  .readable [.file "en.json" (.value (.obj (.ofList [("a", .str "1")]))),
             .file "es.json" (.malformed "Unexpected token")]

/-- A locales directory containing only `fr.json` — the configured
source locale `en` is missing. -/
def exMissingSrcDir : LocalesDir :=
  .readable [.file "fr.json" (.value (.obj (.ofList [("a", .str "1")])))]

/-- A namespaced locales directory: `en/` holds one file, `es/` is an
empty directory. -/
def exNsDir : LocalesDir :=
  .readable [.dir "en" true [.file "default.json" (.value (.obj .nil))],
             .dir "es" true []]

/-- Glob results in which a depth-one child project (`apps`) is returned
before the workspace root (alphabetically,
`<root>/apps/typeglot.config.json` sorts before
`<root>/typeglot.config.json`). -/
def exFoundChildFirst : List (List FoundConfig) :=
  [[⟨"apps", "typeglot.config.json", true⟩, ⟨"", "typeglot.config.json", true⟩], [], []]

/-- Glob results for a workspace whose root directory contains two of
the candidate configuration filenames. -/
def exFoundTwoConfigs : List (List FoundConfig) :=
  [[⟨"", "typeglot.config.json", true⟩], [], [⟨"", ".typeglotrc", true⟩]]

/-- Glob results with one config per directory. -/
def exFoundDistinct : List (List FoundConfig) :=
  [[⟨"", "typeglot.config.json", true⟩, ⟨"apps/docs", "typeglot.config.json", true⟩], [], []]

/-! ### Spec-side definitions (written from the spec's words, for the
refinement claims) and helper lemmas -/

/-- `true` exactly on a thrown/propagated exception. -/
def isError {ε α : Type} : Except ε α → Bool
  | .error _ => true
  | .ok _ => false

/-- Modelled from the spec (§4.4): the flattened map of one contributing
file with the namespace-prefix rule of §3 applied to its keys when the
project uses the namespaced convention. -/
def specFileMap (pat : FilePattern) (f : NamedFile) : Except String ParsedTranslations :=
  match parseTranslationFile f with
  | .error e => .error e
  | .ok t =>
    .ok (if pat = FilePattern.namespaced then
           t.map (fun p => (prefixedKey (basenameNoJson f.name) p.1, p.2))
         else t)

/-- Modelled from the spec (§4.4): the per-file maps of all contributing
files, in file order; the first parse failure aborts. -/
def specFileMaps (pat : FilePattern) : List NamedFile → Except String (List ParsedTranslations)
  | [] => .ok []
  | f :: rest =>
    match specFileMap pat f, specFileMaps pat rest with
    | .error e, _ => .error e
    | .ok _, .error e => .error e
    | .ok t, .ok ts => .ok (t :: ts)

/-- Modelled from the spec (§4.4 and §3): per-locale merge — combine the
per-file maps in file order, "later file wins" on key collision
(`Object.assign` semantics), starting from the empty map. -/
def mergeSpecFiles (pat : FilePattern) (files : List NamedFile) :
    Except String ParsedTranslations :=
  match specFileMaps pat files with
  | .error e => .error e
  | .ok maps => .ok (maps.foldl objAssign [])

theorem objAssign_map_foldl (merged : ParsedTranslations) (t : ParsedTranslations)
    (g : String → String) :
    t.foldl (fun acc p => objInsert acc (g p.1) p.2) merged
      = objAssign merged (t.map (fun p => (g p.1, p.2))) := by
  simp only [objAssign, List.foldl_map]

theorem parseLocaleFilesGo_eq (pat : FilePattern) :
    ∀ (files : List NamedFile) (merged : ParsedTranslations),
      parseLocaleFilesGo pat files merged
        = match specFileMaps pat files with
          | .error e => .error e
          | .ok maps => .ok (maps.foldl objAssign merged)
  | [], merged => by simp [parseLocaleFilesGo, specFileMaps]
  | f :: rest, merged => by
    cases hp : parseTranslationFile f with
    | error e =>
      simp [parseLocaleFilesGo, hp, specFileMaps, specFileMap]
    | ok t =>
      by_cases hns : pat = FilePattern.namespaced
      · rw [hns] at *
        simp only [parseLocaleFilesGo, hp, if_pos rfl, objAssign_map_foldl,
          parseLocaleFilesGo_eq FilePattern.namespaced rest, specFileMaps, specFileMap, hp]
        cases hm : specFileMaps FilePattern.namespaced rest with
        | error e => simp
        | ok maps => simp
      · simp only [parseLocaleFilesGo, hp, if_neg hns,
          parseLocaleFilesGo_eq pat rest, specFileMaps, specFileMap, hp, if_neg hns]
        cases hm : specFileMaps pat rest with
        | error e => simp
        | ok maps => simp

/-- The per-locale merge agrees with the spec-side merge. -/
theorem parseLocaleFiles_eq_mergeSpec (pat : FilePattern) (li : LocaleInfo) :
    parseLocaleFiles pat li = mergeSpecFiles pat li.files := by
  rw [parseLocaleFiles, mergeSpecFiles, parseLocaleFilesGo_eq]

theorem lookup_append_single (k v : String) :
    ∀ (m : ParsedTranslations), (∀ p ∈ m, p.1 ≠ k) → (m ++ [(k, v)]).lookup k = some v
  | [], _ => by simp
  | p :: rest, h => by
    have hne : p.1 ≠ k := h p (List.mem_cons_self p rest)
    have hbeq : (k == p.1) = false := beq_eq_false_iff_ne.mpr (Ne.symm hne)
    have step : ((p :: rest) ++ [(k, v)]).lookup k = (rest ++ [(k, v)]).lookup k := by
      rw [List.cons_append, ← Prod.mk.eta (p := p), List.lookup_cons, hbeq]
    rw [step]
    exact lookup_append_single k v rest (fun q hq => h q (List.mem_cons_of_mem p hq))

theorem lookup_map_update (k v : String) :
    ∀ (m : ParsedTranslations), m.any (fun p => p.1 = k) = true →
      (m.map (fun p => if p.1 = k then (k, v) else p)).lookup k = some v
  | [], h => by simp at h
  | p :: rest, h => by
    by_cases hk : p.1 = k
    · simp [hk]
    · have hbeq : (k == p.1) = false := beq_eq_false_iff_ne.mpr (Ne.symm hk)
      have hr : rest.any (fun p => p.1 = k) = true := by
        simp only [List.any_cons, Bool.or_eq_true, decide_eq_true_eq] at h
        rcases h with h | h
        · exact absurd h hk
        · simpa using h
      have ih := lookup_map_update k v rest hr
      rw [List.map_cons, if_neg hk, ← Prod.mk.eta (p := p), List.lookup_cons, hbeq]
      simpa using ih

/-- "Later wins": after inserting `(k, v)`, the map's value at `k` is
`v`, whatever was there before. -/
theorem objInsert_lookup_self (m : ParsedTranslations) (k v : String) :
    (objInsert m k v).lookup k = some v := by
  rw [objInsert]
  by_cases h : m.any (fun p => p.1 = k) = true
  · rw [if_pos h]
    exact lookup_map_update k v m h
  · rw [if_neg h]
    apply lookup_append_single
    intro p hp hk
    exact h (List.any_eq_true.mpr ⟨p, hp, by simpa using hk⟩)

theorem mem_specFirstOccur {a : String} : ∀ {l : List String}, a ∈ specFirstOccur l → a ∈ l := by
  intro l
  induction l using specFirstOccur.induct with
  | case1 => simp [specFirstOccur]
  | case2 x xs ih =>
    rw [specFirstOccur]
    intro h
    rcases List.mem_cons.mp h with h | h
    · exact h ▸ List.mem_cons_self x xs
    · exact List.mem_cons_of_mem x (List.mem_of_mem_filter (ih h))

theorem nodup_specFirstOccur : ∀ (l : List String), (specFirstOccur l).Nodup := by
  intro l
  induction l using specFirstOccur.induct with
  | case1 => simp [specFirstOccur]
  | case2 x xs ih =>
    rw [specFirstOccur]
    refine List.nodup_cons.mpr ⟨fun hx => ?_, ih⟩
    have := List.of_mem_filter (mem_specFirstOccur hx)
    simp at this

theorem foldl_pushUnique_eq :
    ∀ (l : List String) (acc : List String),
      l.foldl (fun params paramName =>
        if params.contains paramName then params else params ++ [paramName]) acc
      = acc ++ specFirstOccur (l.filter (fun y => !acc.contains y))
  | [], acc => by simp [specFirstOccur]
  | x :: xs, acc => by
    rw [List.foldl_cons]
    by_cases hc : acc.contains x = true
    · rw [if_pos hc, foldl_pushUnique_eq xs acc]
      have : (x :: xs).filter (fun y => !acc.contains y) = xs.filter (fun y => !acc.contains y) := by
        rw [List.filter_cons]
        simp [List.mem_of_elem_eq_true hc]
      rw [this]
    · rw [if_neg hc, foldl_pushUnique_eq xs (acc ++ [x])]
      have hkeep : (x :: xs).filter (fun y => !acc.contains y)
          = x :: xs.filter (fun y => !acc.contains y) := by
        rw [List.filter_cons]
        have hnm : x ∉ acc := fun hm => hc (List.elem_eq_true_of_mem hm)
        simp [hnm]
      rw [hkeep, specFirstOccur, List.append_assoc, List.singleton_append]
      have hfilters : xs.filter (fun y => !(acc ++ [x]).contains y)
          = (xs.filter (fun y => !acc.contains y)).filter (fun y => y ≠ x) := by
        rw [List.filter_filter]
        apply List.filter_congr
        intro y _
        by_cases hyx : y = x
        · simp [hyx]
        · by_cases hya : y ∈ acc
          · simp [hyx, hya]
          · simp [hyx, hya]
      rw [hfilters]

/-- `parseParameters` returns exactly the first-occurrence
deduplication of the raw match list. -/
theorem parseParameters_eq_specFirstOccur (value : String) (syn : InterpSyn) :
    parseParameters value syn = specFirstOccur (matchesOf syn value) := by
  rw [parseParameters, foldl_pushUnique_eq]
  simp

theorem scanAux_no_brace :
    ∀ (fuel : Nat) (cs : List Char), '{' ∉ cs → scanAux tryMatchSingle fuel cs = []
  | 0, _, _ => rfl
  | _ + 1, [], _ => rfl
  | fuel + 1, c :: rest, h => by
    have hc : c ≠ '{' := fun he => h (he ▸ List.mem_cons_self c rest)
    have hm : tryMatchSingle (c :: rest) = none := by
      rw [tryMatchSingle]
      exact if_neg hc
    rw [scanAux, hm]
    exact scanAux_no_brace fuel rest (fun hr => h (List.mem_cons_of_mem c hr))

theorem compileLocalesLoop_error (pat : FilePattern) (outputDir : String) :
    ∀ (infos : List LocaleInfo) (effs : List Effect) (results : List CompileResult),
      (∃ li ∈ infos, isError (parseLocaleFiles pat li) = true) →
      isError (compileLocalesLoop pat outputDir infos effs results).2 = true
  | [], _, _, h => by simp at h
  | li :: rest, effs, results, h => by
    cases hp : parseLocaleFiles pat li with
    | error e => simp [compileLocalesLoop, hp, isError]
    | ok t =>
      rcases h with ⟨x, hx, he⟩
      rcases List.mem_cons.mp hx with rfl | hx'
      · rw [hp] at he
        simp [isError] at he
      · rw [compileLocalesLoop, hp]
        exact compileLocalesLoop_error pat outputDir rest _ _ ⟨x, hx', he⟩

theorem compileLocalesLoop_effects (pat : FilePattern) (outputDir : String) :
    ∀ (infos : List LocaleInfo) (effs : List Effect) (results : List CompileResult),
      ∃ tail, (compileLocalesLoop pat outputDir infos effs results).1 = effs ++ tail
  | [], effs, _ => ⟨[], by simp [compileLocalesLoop]⟩
  | li :: rest, effs, results => by
    cases hp : parseLocaleFiles pat li with
    | error e => exact ⟨[], by simp [compileLocalesLoop, hp]⟩
    | ok t =>
      obtain ⟨tl, htl⟩ := compileLocalesLoop_effects pat outputDir rest
        (effs ++ [.write (outputDir ++ "/" ++ li.locale ++ ".ts")])
        (results ++ [⟨true, outputDir ++ "/" ++ li.locale ++ ".ts", t.length, []⟩])
      refine ⟨.write (outputDir ++ "/" ++ li.locale ++ ".ts") :: tl, ?_⟩
      rw [compileLocalesLoop, hp, htl, List.append_assoc]
      rfl

theorem discoverProjects_sorted (found : List (List FoundConfig)) :
    (discoverProjects found).Pairwise (fun a b => segDepth a.id ≤ segDepth b.id) := by
  have h : (discoverProjects found).Pairwise (fun a b => depthLE a b = true) := by
    rw [discoverProjects]
    exact List.sorted_mergeSort
      (fun a b c hab hbc => by
        simp only [depthLE, decide_eq_true_eq] at *
        omega)
      (fun a b => by
        simp only [depthLE, Bool.or_eq_true, decide_eq_true_eq]
        exact Nat.le_total _ _)
      _
  exact h.imp (fun hab => by simpa [depthLE] using hab)

theorem discoverProjects_ids_perm (found : List (List FoundConfig)) :
    ((discoverProjects found).map (fun p => p.id)).Perm
      (found.flatten.filterMap (fun f => if f.valid then some (projectId f.relDir) else none)) := by
  have hperm : (discoverProjects found).map (fun p => p.id)
      |>.Perm ((found.flatten.filterMap foundProject).map (fun p => p.id)) := by
    rw [discoverProjects]
    exact (List.mergeSort_perm _ _).map _
  have heq : (found.flatten.filterMap foundProject).map (fun p => p.id)
      = found.flatten.filterMap (fun f => if f.valid then some (projectId f.relDir) else none) := by
    rw [List.map_filterMap]
    have : (fun f => (foundProject f).map (fun p => p.id))
        = (fun f : FoundConfig => if f.valid then some (projectId f.relDir) else none) := by
      funext f
      rw [foundProject]
      by_cases hv : f.valid = true
      · rw [if_pos hv, if_pos hv]
        rfl
      · rw [if_neg hv, if_neg hv]
        rfl
    rw [this]
  exact heq ▸ hperm

theorem compile_missing_source_eq (cfg : Config) (d : LocalesDir)
    (hne : getLocaleInfos cfg.filePattern d ≠ [])
    (hmiss : ∀ li ∈ getLocaleInfos cfg.filePattern d, li.locale ≠ cfg.sourceLocale) :
    compile cfg d = ([.mkdirRecursive cfg.outputDir],
      .ok [⟨false, "", 0, ["Source locale not found: " ++ cfg.sourceLocale]⟩]) := by
  have hlen : ¬ ((getLocaleInfos cfg.filePattern d).length = 0) := by
    intro h0
    exact hne (List.length_eq_zero.mp h0)
  have hfind : (getLocaleInfos cfg.filePattern d).find?
      (fun l => l.locale = cfg.sourceLocale) = none := by
    rw [List.find?_eq_none]
    intro x hx
    simpa using hmiss x hx
  simp only [compile, if_neg hlen, hfind]

theorem compile_effects_head (cfg : Config) (d : LocalesDir) :
    (compile cfg d).1.head? = some (.mkdirRecursive cfg.outputDir) := by
  by_cases hlen : (getLocaleInfos cfg.filePattern d).length = 0
  · simp only [compile, if_pos hlen]
    rfl
  · cases hf : (getLocaleInfos cfg.filePattern d).find? (fun l => l.locale = cfg.sourceLocale) with
    | none =>
      simp only [compile, if_neg hlen, hf]
      rfl
    | some src =>
      cases hp : parseLocaleFiles cfg.filePattern src with
      | error e =>
        simp only [compile, if_neg hlen, hf, hp]
        rfl
      | ok st =>
        obtain ⟨tl, htl⟩ := compileLocalesLoop_effects cfg.filePattern cfg.outputDir
          (getLocaleInfos cfg.filePattern d)
          ([.mkdirRecursive cfg.outputDir] ++ [.write (cfg.outputDir ++ "/messages.ts")])
          [⟨true, cfg.outputDir ++ "/messages.ts", st.length, []⟩]
        cases hl : compileLocalesLoop cfg.filePattern cfg.outputDir
          (getLocaleInfos cfg.filePattern d)
          ([.mkdirRecursive cfg.outputDir] ++ [.write (cfg.outputDir ++ "/messages.ts")])
          [⟨true, cfg.outputDir ++ "/messages.ts", st.length, []⟩] with
        | mk effs res =>
          rw [hl] at htl
          have htl' : effs = ([Effect.mkdirRecursive cfg.outputDir]
              ++ [Effect.write (cfg.outputDir ++ "/messages.ts")]) ++ tl := htl
          cases res with
          | error e =>
            simp only [compile, if_neg hlen, hf, hp, hl, htl']
            rfl
          | ok results =>
            simp only [compile, if_neg hlen, hf, hp, hl, htl']
            rfl

/-! ### The claims -/

/-- Claim C1 (counterexample): three filesystem change events delivered
while one pass is in flight do not result in exactly one additional pass
— the pass count after three events is 4, not 2. -/
theorem claim1_counterexample :
    ¬ ((deliverEvents ⟨1⟩ [("a.json", .added), ("a.json", .changed), ("b.json", .removed)]).passes
        = 1 + 1) := by
  decide

/-- Claim C1 (amended): `TranslationWatcher` performs no coalescing —
every filesystem event delivered to the watcher runs one full compiler
pass of its own, so `n` events arriving during an in-flight pass cause
`n` additional passes, not one. -/
theorem claim1_each_event_runs_a_pass (t : WatcherTrace) (es : List (String × WatchEvent)) :
    (deliverEvents t es).passes = t.passes + es.length := by
  induction es generalizing t with
  | nil => rfl
  | cons e rest ih =>
    show (deliverEvents (handleChange t e.1 e.2) rest).passes = t.passes + (rest.length + 1)
    rw [ih]
    simp [handleChange]
    omega

/-- Claim C2 (counterexample): with `en.json` well-formed and `es.json`
malformed, `compile` rejects with the parse error — it does not return a
`CompileResult` list containing a failed result for `es` alongside a
generated module for `en`. -/
theorem claim2_counterexample :
    (compile exFlatCfg exMalformedDir).2 = Except.error "Unexpected token" := rfl

/-- Claim C2 (amended): a malformed translation source file does not
yield a per-file failed `CompileResult`; instead the exception from
`parseTranslationFile` propagates and the whole compile invocation
rejects, so no sibling locale gets a result either: whenever the source
locale is enumerated and some enumerated locale has a file that fails to
parse, `compile` returns an error outcome. -/
theorem claim2_malformed_rejects_compile (cfg : Config) (d : LocalesDir)
    (hsrc : ∃ li ∈ getLocaleInfos cfg.filePattern d, li.locale = cfg.sourceLocale)
    (hbad : ∃ li ∈ getLocaleInfos cfg.filePattern d,
      isError (parseLocaleFiles cfg.filePattern li) = true) :
    isError (compile cfg d).2 = true := by
  rcases hsrc with ⟨s, hs, hsl⟩
  have hlen : ¬ ((getLocaleInfos cfg.filePattern d).length = 0) := by
    intro h0
    rw [List.length_eq_zero.mp h0] at hs
    simp at hs
  have hfind : ((getLocaleInfos cfg.filePattern d).find?
      (fun l => l.locale = cfg.sourceLocale)).isSome := by
    rw [List.find?_isSome]
    exact ⟨s, hs, by simpa using hsl⟩
  cases hf : (getLocaleInfos cfg.filePattern d).find? (fun l => l.locale = cfg.sourceLocale) with
  | none =>
    rw [hf] at hfind
    simp at hfind
  | some src =>
    cases hp : parseLocaleFiles cfg.filePattern src with
    | error e => simp only [compile, if_neg hlen, hf, hp, isError]
    | ok st =>
      have hloop := compileLocalesLoop_error cfg.filePattern cfg.outputDir
        (getLocaleInfos cfg.filePattern d)
        ([.mkdirRecursive cfg.outputDir] ++ [.write (cfg.outputDir ++ "/messages.ts")])
        [⟨true, cfg.outputDir ++ "/messages.ts", st.length, []⟩] hbad
      cases hl : compileLocalesLoop cfg.filePattern cfg.outputDir
        (getLocaleInfos cfg.filePattern d)
        ([.mkdirRecursive cfg.outputDir] ++ [.write (cfg.outputDir ++ "/messages.ts")])
        [⟨true, cfg.outputDir ++ "/messages.ts", st.length, []⟩] with
      | mk effs res =>
        rw [hl] at hloop
        cases res with
        | error e => simp only [compile, if_neg hlen, hf, hp, hl, isError]
        | ok results => simp [isError] at hloop

/-- Claim C2 (witness): the amended theorem applied to the concrete
malformed workspace. -/
theorem claim2_witness :
    (∃ li ∈ getLocaleInfos exFlatCfg.filePattern exMalformedDir,
        li.locale = exFlatCfg.sourceLocale)
    ∧ (∃ li ∈ getLocaleInfos exFlatCfg.filePattern exMalformedDir,
        isError (parseLocaleFiles exFlatCfg.filePattern li) = true)
    ∧ isError (compile exFlatCfg exMalformedDir).2 = true :=
  ⟨by decide, by decide,
   claim2_malformed_rejects_compile exFlatCfg exMalformedDir (by decide) (by decide)⟩

/-- Claim C3 (counterexample): a locales directory that enumerates zero
locales trivially does not include the source locale, yet `compile`
returns an empty result list — not exactly one failed `CompileResult`
naming the missing locale. -/
theorem claim3_counterexample :
    getLocaleInfos exFlatCfg.filePattern (.readable []) = []
    ∧ compile exFlatCfg (.readable [])
        = ([.mkdirRecursive "./out"], .ok []) := ⟨rfl, rfl⟩

/-- Claim C3 (amended): when at least one locale is enumerated and none
of them is the configured source locale, `compile` returns exactly one
`CompileResult`, failed, whose error names the missing source locale,
and performs no file write (only the output-directory `mkdir`). -/
theorem claim3_missing_source (cfg : Config) (d : LocalesDir)
    (hne : getLocaleInfos cfg.filePattern d ≠ [])
    (hmiss : ∀ li ∈ getLocaleInfos cfg.filePattern d, li.locale ≠ cfg.sourceLocale) :
    compile cfg d = ([.mkdirRecursive cfg.outputDir],
      .ok [⟨false, "", 0, ["Source locale not found: " ++ cfg.sourceLocale]⟩]) :=
  compile_missing_source_eq cfg d hne hmiss

/-- Claim C3 (witness): the amended theorem applied to a directory whose
only locale is `fr` while the source locale is `en`. -/
theorem claim3_witness :
    getLocaleInfos exFlatCfg.filePattern exMissingSrcDir ≠ []
    ∧ (∀ li ∈ getLocaleInfos exFlatCfg.filePattern exMissingSrcDir,
        li.locale ≠ exFlatCfg.sourceLocale)
    ∧ compile exFlatCfg exMissingSrcDir = ([.mkdirRecursive "./out"],
        .ok [⟨false, "", 0, ["Source locale not found: " ++ "en"]⟩]) :=
  ⟨by decide, by decide,
   claim3_missing_source exFlatCfg exMissingSrcDir (by decide) (by decide)⟩

/-- Claim C4: the merged per-locale key map equals the maps of the
contributing files combined in file order with later files overwriting
earlier ones (`objInsert` makes the later value win at its key), with
the namespace-prefix rule applied under the namespaced convention; in
particular `default.json = {"a":"1"}` and `common.json = {"b":"2"}`
merge to `{"a":"1", "common.b":"2"}`. -/
theorem claim4_merge_follows_file_order :
    (∀ (pat : FilePattern) (li : LocaleInfo),
        parseLocaleFiles pat li = mergeSpecFiles pat li.files)
    ∧ (∀ (m : ParsedTranslations) (k v : String), (objInsert m k v).lookup k = some v)
    ∧ parseLocaleFiles FilePattern.namespaced
        ⟨"en", [⟨"default.json", .value (.obj (.ofList [("a", .str "1")]))⟩,
                ⟨"common.json", .value (.obj (.ofList [("b", .str "2")]))⟩]⟩
      = .ok [("a", "1"), ("common.b", "2")] :=
  ⟨parseLocaleFiles_eq_mergeSpec, objInsert_lookup_self, rfl⟩

/-- Claim C5: parameter extraction returns the deduplicated list of
parameter names ordered by first occurrence (it equals the spec-side
first-occurrence deduplication of the raw match list and never contains
duplicates), scanning with exactly the one pattern selected by the
configured syntax — under double syntax a single-brace value yields
nothing — and `"Hello, {name}! You have {count} items"` yields
`["name", "count"]` with no duplicates even when a name repeats. -/
theorem claim5_parameter_extraction :
    (∀ (value : String) (syn : InterpSyn),
        parseParameters value syn = specFirstOccur (matchesOf syn value))
    ∧ (∀ (value : String) (syn : InterpSyn), (parseParameters value syn).Nodup)
    ∧ parseParameters "Hello, {name}! You have {count} items" .single = ["name", "count"]
    ∧ parseParameters "{name} met {count} of {name}" .single = ["name", "count"]
    ∧ parseParameters "Hello, {name}" .double = [] :=
  ⟨parseParameters_eq_specFirstOccur,
   fun value syn => parseParameters_eq_specFirstOccur value syn ▸ nodup_specFirstOccur _,
   by decide, by decide, by decide⟩

/-- Claim C6 (counterexample): a parameter written with a comma-separated
type hint is NOT extracted by the basic extraction — both an ICU plural
value and a `{count, number}` value yield the empty parameter list, so
`count` is not included. -/
theorem claim6_counterexample :
    parseParameters "You have \x7bcount, plural, one \x7b# item\x7d other \x7b# items\x7d\x7d" .single = []
    ∧ parseParameters "\x7bcount, number\x7d" .single = []
    ∧ ¬ ("count" ∈ parseParameters "\x7bcount, number\x7d" .single) :=
  ⟨by decide, by decide, by decide⟩

/-- Claim C6 (amended): the basic single-brace pattern requires the
closing brace immediately after the parameter name, so a value of the
form `{name, hint}` (with no other opening brace) yields no parameters
at all: whenever the first character is `{`, the character following the
leading word-character run is not `}`, and no further `{` occurs, the
result is empty. -/
theorem claim6_comma_hint_not_extracted (value : String) (body : List Char)
    (hv : value.data = '{' :: body)
    (hnb : '{' ∉ body)
    (hnc : ¬ (body.dropWhile isWordChar).head? = some '}') :
    parseParameters value .single = [] := by
  have hmt : tryMatchSingle ('{' :: body) = none := by
    rw [tryMatchSingle, if_pos rfl]
    by_cases hw : (body.takeWhile isWordChar).isEmpty
    · rw [if_pos hw]
    · rw [if_neg hw, if_neg hnc]
  have hm : matchesOf .single value = [] := by
    rw [matchesOf, hv]
    show scanAux tryMatchSingle (body.length + 1) ('{' :: body) = []
    rw [scanAux, hmt]
    exact scanAux_no_brace _ body hnb
  rw [parseParameters, hm]
  rfl

/-- Claim C6 (witness): the amended theorem applied to
`"{count, number}"`. -/
theorem claim6_witness :
    ("\x7bcount, number\x7d".data = '{' :: "count, number\x7d".data)
    ∧ ('{' ∉ "count, number\x7d".data)
    ∧ (¬ ("count, number\x7d".data.dropWhile isWordChar).head? = some '}')
    ∧ parseParameters "\x7bcount, number\x7d" .single = [] :=
  ⟨rfl, by decide, by decide,
   claim6_comma_hint_not_extracted "\x7bcount, number\x7d" "count, number\x7d".data
     rfl (by decide) (by decide)⟩

unseal List.mergeSort List.merge in
/-- Claim C7 (counterexample): when glob returns a depth-one child
project before the workspace root (their ids `apps` and `root` have the
same path-segment depth and the sort is stable), the root project is
present but not first in the list. -/
theorem claim7_counterexample :
    ((discoverProjects exFoundChildFirst).map (fun p => p.id) = ["apps", "root"])
    ∧ ¬ (((discoverProjects exFoundChildFirst).map (fun p => p.id)).head? = some "root") :=
  ⟨by decide, by decide⟩

/-- Claim C7 (amended): `discoverProjects` returns the projects sorted
ascending by path-segment depth of the id; the workspace-root project
therefore precedes every project whose id is strictly deeper, but it can
tie with a depth-one child project, in which case discovery order (the
stable sort's input order) decides who is first. -/
theorem claim7_sorted_by_depth (found : List (List FoundConfig)) :
    (discoverProjects found).Pairwise (fun a b => segDepth a.id ≤ segDepth b.id) :=
  discoverProjects_sorted found

unseal List.mergeSort List.merge in
/-- Claim C8 (counterexample): a single directory containing two of the
candidate configuration filenames produces two `DiscoveredProject`
records with the same id — the ids are not pairwise distinct. -/
theorem claim8_counterexample :
    ((discoverProjects exFoundTwoConfigs).map (fun p => p.id) = ["root", "root"])
    ∧ ¬ ((discoverProjects exFoundTwoConfigs).map (fun p => p.id)).Nodup :=
  ⟨by decide, by decide⟩

/-- Claim C8 (amended): no deduplication is performed, so ids are
pairwise distinct exactly when the valid config files themselves map to
pairwise distinct project ids (in particular, at most one candidate
configuration filename per directory). -/
theorem claim8_ids_nodup (found : List (List FoundConfig))
    (h : (found.flatten.filterMap
        (fun f => if f.valid then some (projectId f.relDir) else none)).Nodup) :
    ((discoverProjects found).map (fun p => p.id)).Nodup :=
  ((discoverProjects_ids_perm found).nodup_iff).mpr h

/-- Claim C8 (witness): the amended theorem applied to a workspace with
one config per directory. -/
theorem claim8_witness :
    ((exFoundDistinct.flatten.filterMap
        (fun f => if f.valid then some (projectId f.relDir) else none)).Nodup)
    ∧ ((discoverProjects exFoundDistinct).map (fun p => p.id)).Nodup :=
  ⟨by decide, claim8_ids_nodup exFoundDistinct (by decide)⟩

/-- Claim C9: locale enumeration is total and never errors — a missing
(unreadable) locales directory yields the empty list under both
conventions, and under the namespaced convention every returned locale
has at least one contributing file, so a top-level directory with zero
matching translation files does not appear (as the concrete `en`/empty
`es` listing shows). -/
theorem claim9_enumeration_total :
    (∀ pat : FilePattern, getLocaleInfos pat .unreadable = [])
    ∧ (∀ (es : List FsEntry) (li : LocaleInfo),
        li ∈ getNamespaceLocaleInfos (.readable es) → li.files ≠ [])
    ∧ getNamespaceLocaleInfos exNsDir
        = [⟨"en", [⟨"default.json", .value (.obj .nil)⟩]⟩] := by
  refine ⟨fun pat => by cases pat <;> rfl, ?_, rfl⟩
  intro es li hli
  rw [getNamespaceLocaleInfos] at hli
  rcases List.mem_filterMap.mp hli with ⟨e, _, hsome⟩
  cases e with
  | file n c => simp [nsLocaleOf] at hsome
  | dir name readable sub =>
    rw [nsLocaleOf] at hsome
    split at hsome
    · rename_i hlen
      cases hsome
      intro h0
      have h0' : nsFiles readable sub = [] := h0
      rw [h0'] at hlen
      simp at hlen
    · cases hsome

/-- Claim C9 (witness): the namespaced enumeration of the concrete
listing contains the `en` locale, and its file list is nonempty. -/
theorem claim9_witness :
    ((⟨"en", [⟨"default.json", .value (.obj .nil)⟩]⟩ : LocaleInfo)
        ∈ getNamespaceLocaleInfos exNsDir)
    ∧ (⟨"en", [⟨"default.json", .value (.obj .nil)⟩]⟩ : LocaleInfo).files ≠ [] := by
  have hmem : (⟨"en", [⟨"default.json", .value (.obj .nil)⟩]⟩ : LocaleInfo)
      ∈ getNamespaceLocaleInfos exNsDir := by
    show (⟨"en", [⟨"default.json", .value (.obj .nil)⟩]⟩ : LocaleInfo)
      ∈ [⟨"en", [⟨"default.json", .value (.obj .nil)⟩]⟩]
    exact List.mem_singleton_self _
  have hd := hmem
  rw [show exNsDir = LocalesDir.readable
      [.dir "en" true [.file "default.json" (.value (.obj .nil))],
       .dir "es" true []] from rfl] at hd
  exact ⟨hmem, claim9_enumeration_total.2.1 _ _ hd⟩

/-- Claim C10: `compile` creates the output directory (recursively) as
its first effect, before locale enumeration — so a compile that finds no
translation files, or fails because the source locale is missing, still
performs the `mkdir` and writes nothing else. -/
theorem claim10_mkdir_first :
    (∀ (cfg : Config) (d : LocalesDir),
        (compile cfg d).1.head? = some (.mkdirRecursive cfg.outputDir))
    ∧ (∀ (cfg : Config) (d : LocalesDir), getLocaleInfos cfg.filePattern d = [] →
        (compile cfg d).1 = [.mkdirRecursive cfg.outputDir])
    ∧ (∀ (cfg : Config) (d : LocalesDir),
        getLocaleInfos cfg.filePattern d ≠ [] →
        (∀ li ∈ getLocaleInfos cfg.filePattern d, li.locale ≠ cfg.sourceLocale) →
        (compile cfg d).1 = [.mkdirRecursive cfg.outputDir]) := by
  refine ⟨compile_effects_head, ?_, ?_⟩
  · intro cfg d h0
    have hlen : (getLocaleInfos cfg.filePattern d).length = 0 := by
      rw [h0]
      rfl
    simp only [compile, if_pos hlen]
  · intro cfg d hne hmiss
    rw [compile_missing_source_eq cfg d hne hmiss]

/-- Claim C10 (witness): both failure shapes on concrete inputs — an
empty locales directory and a directory missing the source locale — end
with only the `mkdir` effect performed. -/
theorem claim10_witness :
    (getLocaleInfos exFlatCfg.filePattern (.readable []) = []
      ∧ (compile exFlatCfg (.readable [])).1 = [.mkdirRecursive "./out"])
    ∧ (getLocaleInfos exFlatCfg.filePattern exMissingSrcDir ≠ []
      ∧ (compile exFlatCfg exMissingSrcDir).1 = [.mkdirRecursive "./out"]) :=
  ⟨⟨rfl, claim10_mkdir_first.2.1 exFlatCfg (.readable []) rfl⟩,
   ⟨by decide, claim10_mkdir_first.2.2 exFlatCfg exMissingSrcDir (by decide) (by decide)⟩⟩

end TypeGlot
